import Mathlib

/-!
Verification of the counting benchmark in `src/main.cpp`.

The file embeds the program's core — the hand-written fork-join counting
engine `custom_parallel_count_if`, the driver's candidate worker-count list
`k_values`, the Phase-C loop's best-K selection, and the count-storing
variables — as executable Lean definitions, and proves the spec's claims
about them.

Modelling conventions:
* `std::vector<int>` datasets are `List Int`; `size_t` index arithmetic is
  `Nat` (for a realisable vector, `data_size + num_threads - 1` and
  `i * chunk_size` with `0 ≤ i < num_threads` never reach `2^64`, so plain
  `Nat` arithmetic coincides with `size_t` arithmetic on every reachable
  value).
* the `int num_threads` parameter is `Int`; the C++ loop
  `for (int i = 0; i < num_threads; ++i)` runs `num_threads.toNat` times
  (zero times when `num_threads ≤ 0`, exactly as in the source).
* `num_threads = 0` with a non-empty dataset makes the source divide by
  zero (undefined behaviour); no theorem below is stated on that path.
* elapsed times (C++ `double`) are modelled as `ℚ`; the `DBL_MAX` sentinel
  initialising `best_time` is modelled as `none`, faithful for every
  elapsed time below `DBL_MAX`.
-/

namespace Lab2

/-- `is_even` (src/main.cpp:15-17): the benchmark predicate `n % 2 == 0`.
C++ truncating `%` and Lean's `Int.emod` agree on the zero test (both are
`0` exactly when `2 ∣ n`). -/
def is_even (n : Int) : Bool := n % 2 == 0

/-- The chunk-size formula of src/main.cpp:47:
`(data_size + num_threads - 1) / num_threads`, in `size_t` arithmetic. -/
def chunk_size_of (data_size num_threads : Nat) : Nat :=
  (data_size + num_threads - 1) / num_threads

/-- The chunk-building loop of src/main.cpp:52-58: for `i = 0 .. num_threads-1`
compute `start_idx = i * chunk_size`, `end_idx = min (start_idx + chunk_size)
data_size`, and skip (`continue`) the chunk when `start_idx >= end_idx`.
The surviving `(start_idx, end_idx)` pairs are the spawned tasks. -/
def chunkList (data_size : Nat) (num_threads : Int) : List (Nat × Nat) :=
  (List.range num_threads.toNat).filterMap fun i =>
    let start_idx := i * chunk_size_of data_size num_threads.toNat
    let end_idx := min (start_idx + chunk_size_of data_size num_threads.toNat) data_size
    if end_idx ≤ start_idx then none else some (start_idx, end_idx)

/-- One worker task (src/main.cpp:60-68): iterate `j` over
`[start_idx, end_idx)`, incrementing a private `long long local_count`
whenever `is_even (data[j])`. -/
def taskCount (data : List Int) (start_idx end_idx : Nat) : Int :=
  (List.range' start_idx (end_idx - start_idx)).foldl
    (fun local_count j => if is_even (data.getD j 0) then local_count + 1 else local_count) 0

/-- The `futures` vector built by `custom_parallel_count_if`: empty when the
dataset is empty (the early return of src/main.cpp:41-43 precedes the loop),
otherwise one entry per non-skipped chunk. -/
def futuresOf (data : List Int) (num_threads : Int) : List (Nat × Nat) :=
  if data.isEmpty then [] else chunkList data.length num_threads

/-- `custom_parallel_count_if` (src/main.cpp:40-76): early-return `0` on an
empty dataset, else join the spawned tasks and accumulate their partial
counts into `long long total_count`. -/
def custom_parallel_count_if (data : List Int) (num_threads : Int) : Int :=
  if data.isEmpty then 0
  else (futuresOf data num_threads).foldl
    (fun total_count f => total_count + taskCount data f.1 f.2) 0

/-- The sequential reference count (`std::count_if(data.begin(), data.end(),
is_even)`, src/main.cpp:96): the number of elements satisfying `is_even`. -/
def count_if_seq (data : List Int) : Int := (data.countP is_even : Nat)

/-- The raw sequence of `k_values.push_back` calls of src/main.cpp:134-145:
`1`, `H/2` (if `H > 1`), `H`, `H + (H > 1 ? H/2 : 1)`, `H*2`, `H*3`
(if `H > 2`), `32`. -/
def k_values_raw (hardware_threads : Nat) : List Nat :=
  [1] ++ (if 1 < hardware_threads then [hardware_threads / 2] else []) ++
  [hardware_threads,
   hardware_threads + (if 1 < hardware_threads then hardware_threads / 2 else 1),
   hardware_threads * 2] ++
  (if 2 < hardware_threads then [hardware_threads * 3] else []) ++ [32]

/-- The candidate worker-count list of src/main.cpp:134-148: the raw pushes,
then `std::sort` and erasure of consecutive duplicates with `std::unique`.
`std::sort` is `mergeSort (· ≤ ·)`; on the sorted list, `std::unique` is
`destutter (· ≠ ·)`. -/
def k_values (hardware_threads : Nat) : List Nat :=
  ((k_values_raw hardware_threads).mergeSort (· ≤ ·)).destutter (· ≠ ·)

/-- The worker counts the Phase-C loop actually passes to the engine
(src/main.cpp:157-158): every `k` in `k_values` except those skipped by
`if (k == 0) continue;`. -/
def phaseC_ks (hardware_threads : Nat) : List Nat :=
  (k_values hardware_threads).filter fun k => !(k == 0)

/-- The divisor of the final report's ratio
`static_cast<double>(best_k) / hardware_threads` (src/main.cpp:172): the raw
hardware-concurrency value, used with no adjustment or guard. -/
def ratio_divisor (hardware_threads : Nat) : Nat := hardware_threads

/-- Modelled from the spec: the guarded ratio divisor the spec asks for,
"fall back to treating H as 1" when the hardware-concurrency query
returns 0. -/
def guarded_ratio_divisor (hardware_threads : Nat) : Nat :=
  if hardware_threads = 0 then 1 else hardware_threads

/-- One iteration of the best-K tracking of src/main.cpp:164-167: update
`(best_k, best_time)` exactly when the new duration is strictly smaller
than the current best.  `none` is the initial `DBL_MAX` sentinel, which
every actual duration beats. -/
def bestStep (st : Int × Option ℚ) (r : Nat × ℚ) : Int × Option ℚ :=
  match st.2 with
  | none => ((r.1 : Int), some r.2)
  | some best_time => if r.2 < best_time then ((r.1 : Int), some r.2) else st

/-- The Phase-C best-K selection (src/main.cpp:153-168): fold `bestStep`
over the benchmark records starting from `best_k = -1`,
`best_time = DBL_MAX`. -/
def bestFold (records : List (Nat × ℚ)) : Int × Option ℚ :=
  records.foldl bestStep (-1, none)

/-- The minimum elapsed time over the record `b` and the records `records`
(the value `best_time` holds after the Phase-C loop). -/
def minElapsed (b : Nat × ℚ) (records : List (Nat × ℚ)) : ℚ :=
  records.foldl (fun acc r => min acc r.2) b.2

/-- Two's-complement wrap of an integer value into a `w`-bit signed
machine integer: what storing the value into such a variable keeps. -/
def wrapSigned (w : Nat) (c : Int) : Int :=
  (c + 2 ^ (w - 1)) % 2 ^ w - 2 ^ (w - 1)

/-- Storing into `long long total_count` (src/main.cpp:45): 64-bit. -/
def store_total_count (c : Int) : Int := wrapSigned 64 c

/-- Storing into `long long count_result` (src/main.cpp:107): 64-bit. -/
def store_count_result (c : Int) : Int := wrapSigned 64 c

/-- Storing into `long long last_count` (src/main.cpp:155): 64-bit. -/
def store_last_count (c : Int) : Int := wrapSigned 64 c

/-- Storing the Phase-A baseline count into `int nonlocal`
(src/main.cpp:92,96): a 32-bit variable. -/
def store_nonlocal (c : Int) : Int := wrapSigned 32 c

/-- A read of `data[j]` (src/main.cpp:63) with the dataset threaded as
state: returns the value read and the (unchanged) dataset. -/
def readElem (st : List Int) (j : Nat) : Int × List Int := (st.getD j 0, st)

/-- State-passing version of one worker task: every access to the dataset
goes through `readElem` and threads the dataset state. -/
def taskCountSt (st : List Int) (start_idx end_idx : Nat) : Int × List Int :=
  (List.range' start_idx (end_idx - start_idx)).foldl
    (fun acc j =>
      let r := readElem acc.2 j
      (if is_even r.1 then acc.1 + 1 else acc.1, r.2)) (0, st)

/-- State-passing version of `custom_parallel_count_if`: the dataset state
is threaded through every task; the pair returned is (count, dataset after
the call). -/
def custom_parallel_count_if_st (data : List Int) (num_threads : Int) : Int × List Int :=
  if data.isEmpty then (0, data)
  else (futuresOf data num_threads).foldl
    (fun acc f =>
      let r := taskCountSt acc.2 f.1 f.2
      (acc.1 + r.1, r.2)) (0, data)

/-! ### Helper lemmas about the counting engine -/

lemma foldl_count_eq (data : List Int) (idxs : List Nat) (a : Int) :
    idxs.foldl (fun acc j => if is_even (data.getD j 0) then acc + 1 else acc) a
      = a + (idxs.countP (fun j => is_even (data.getD j 0)) : Nat) := by
  induction idxs generalizing a with
  | nil => simp
  | cons j l ih =>
    simp only [List.foldl_cons, List.countP_cons, ih]
    by_cases h : is_even (data.getD j 0)
    · rw [if_pos h, if_pos h]
      push_cast
      ring
    · rw [if_neg h, if_neg h]
      push_cast
      ring

lemma countP_range' (data : List Int) :
    ∀ (m s : Nat), s + m ≤ data.length →
      (List.range' s m).countP (fun j => is_even (data.getD j 0))
        = ((data.drop s).take m).countP is_even := by
  intro m
  induction m with
  | zero => intro s _; simp
  | succ m ih =>
    intro s h
    have hs : s < data.length := by omega
    rw [List.range'_succ, List.drop_eq_getElem_cons hs, List.take_succ_cons,
      List.countP_cons, List.countP_cons, ih (s + 1) (by omega),
      List.getD_eq_getElem data 0 hs]

/-- A task over an empty index range counts nothing. -/
lemma taskCount_zero (data : List Int) (s e : Nat) (h : e ≤ s) :
    taskCount data s e = 0 := by
  unfold taskCount
  have : e - s = 0 := by omega
  rw [this]
  rfl

/-- A task's partial count is exactly the number of `is_even` elements in
its contiguous segment of the dataset. -/
lemma taskCount_eq (data : List Int) (s e : Nat) (hse : s ≤ e) (he : e ≤ data.length) :
    taskCount data s e = (((data.drop s).take (e - s)).countP is_even : Nat) := by
  unfold taskCount
  rw [foldl_count_eq, countP_range' data (e - s) s (by omega), zero_add]

lemma countP_take_add (data : List Int) (a b : Nat) (hab : a ≤ b) :
    (data.take b).countP is_even
      = (data.take a).countP is_even + ((data.drop a).take (b - a)).countP is_even := by
  conv_lhs => rw [show b = a + (b - a) by omega]
  rw [List.take_add, List.countP_append]

lemma foldl_add_taskCount (data : List Int) :
    ∀ (fs : List (Nat × Nat)) (a : Int),
      fs.foldl (fun total_count f => total_count + taskCount data f.1 f.2) a
        = a + (fs.map (fun f => taskCount data f.1 f.2)).sum := by
  intro fs
  induction fs with
  | nil => simp
  | cons f l ih => intro a; simp [ih, add_assoc]

/-- Dropping the skipped (empty) chunks does not change the summed count:
a skipped chunk would have contributed `0`. -/
lemma chunk_filterMap_sum (data : List Int) (c n : Nat) :
    ∀ is : List Nat,
      (((is.filterMap fun i =>
          if min (i * c + c) n ≤ i * c then none
          else some (i * c, min (i * c + c) n))).map
        (fun f => taskCount data f.1 f.2)).sum
        = (is.map fun i => taskCount data (i * c) (min (i * c + c) n)).sum := by
  intro is
  induction is with
  | nil => simp
  | cons i l ih =>
    by_cases h : min (i * c + c) n ≤ i * c
    · simp only [List.filterMap_cons, if_pos h, List.map_cons, List.sum_cons]
      rw [ih, taskCount_zero data _ _ h]
      ring
    · simp only [List.filterMap_cons, if_neg h, List.map_cons, List.sum_cons]
      rw [ih]

/-- Summing the per-chunk counts of the first `m` chunks counts exactly the
first `min (m * c) n` elements of the dataset. -/
lemma chunks_sum_eq (data : List Int) (c : Nat) (hc : 1 ≤ c) :
    ∀ m : Nat,
      ((List.range m).map fun i =>
          taskCount data (i * c) (min (i * c + c) data.length)).sum
        = ((data.take (min (m * c) data.length)).countP is_even : Nat) := by
  intro m
  induction m with
  | zero => simp
  | succ m ih =>
    rw [List.range_succ, List.map_append, List.sum_append]
    simp only [List.map_cons, List.map_nil, List.sum_cons, List.sum_nil, add_zero]
    rw [ih]
    by_cases h : data.length ≤ m * c
    · have h1 : min (m * c) data.length = data.length := min_eq_right h
      have h2 : min ((m + 1) * c) data.length = data.length := by
        apply min_eq_right
        calc data.length ≤ m * c := h
          _ ≤ (m + 1) * c := Nat.mul_le_mul_right c (by omega)
      have h3 : min (m * c + c) data.length ≤ m * c := by
        calc min (m * c + c) data.length ≤ data.length := min_le_right _ _
          _ ≤ m * c := h
      rw [taskCount_zero data _ _ h3, h1, h2, add_zero]
    · push_neg at h
      have h1 : min (m * c) data.length = m * c := min_eq_left h.le
      have he : min (m * c + c) data.length ≤ data.length := min_le_right _ _
      have hse : m * c ≤ min (m * c + c) data.length := le_min (by omega) h.le
      rw [taskCount_eq data (m * c) _ hse he]
      have h2 : min ((m + 1) * c) data.length = min (m * c + c) data.length := by
        congr 1
        ring
      rw [h2, h1,
        countP_take_add data (m * c) (min (m * c + c) data.length) hse]
      push_cast
      ring

/-- Ceiling coverage: `K` chunks of size `⌈n/K⌉` cover all `n` indices. -/
lemma chunk_size_covers (n Kn : Nat) (hK : 1 ≤ Kn) (hn : 1 ≤ n) :
    n ≤ Kn * chunk_size_of n Kn := by
  unfold chunk_size_of
  have h1 := Nat.div_add_mod (n + Kn - 1) Kn
  have h2 : (n + Kn - 1) % Kn < Kn := Nat.mod_lt _ (by omega)
  omega

lemma chunk_size_pos (n Kn : Nat) (hK : 1 ≤ Kn) (hn : 1 ≤ n) :
    1 ≤ chunk_size_of n Kn := by
  unfold chunk_size_of
  rw [Nat.le_div_iff_mul_le (by omega)]
  omega

/-- The engine computes exactly the number of `is_even` elements, for every
dataset and every worker count `K ≥ 1`. -/
lemma custom_parallel_eq_countP (data : List Int) (K : Int) (hK : 1 ≤ K) :
    custom_parallel_count_if data K = (data.countP is_even : Nat) := by
  by_cases hd : data.isEmpty = true
  · rw [List.isEmpty_iff.mp hd]
    rfl
  · have hne : data ≠ [] := by
      intro h
      exact hd (by simp [h])
    have hn : 1 ≤ data.length := List.length_pos.mpr hne
    have hK1 : 1 ≤ K.toNat := by omega
    have hc := chunk_size_pos data.length K.toNat hK1 hn
    have hcov := chunk_size_covers data.length K.toNat hK1 hn
    unfold custom_parallel_count_if futuresOf
    rw [if_neg hd, if_neg hd]
    unfold chunkList
    rw [foldl_add_taskCount, zero_add]
    simp only []
    rw [chunk_filterMap_sum data (chunk_size_of data.length K.toNat) data.length
        (List.range K.toNat),
      chunks_sum_eq data (chunk_size_of data.length K.toNat) hc K.toNat,
      min_eq_right hcov, List.take_length]

/-- C1: for every dataset `D` and worker count `K ≥ 1`,
`custom_parallel_count_if D K` returns exactly the number of elements of
`D` satisfying `is_even` — it equals the sequential reference count — and
consequently any two worker counts `K1, K2 ≥ 1` return the same value. -/
theorem parallel_count_exact (data : List Int) (K1 K2 : Int)
    (h1 : 1 ≤ K1) (h2 : 1 ≤ K2) :
    custom_parallel_count_if data K1 = count_if_seq data ∧
    custom_parallel_count_if data K1 = custom_parallel_count_if data K2 := by
  refine ⟨custom_parallel_eq_countP data K1 h1, ?_⟩
  rw [custom_parallel_eq_countP data K1 h1, custom_parallel_eq_countP data K2 h2]

/-- Witness for C1 at `D = [2..11]`, `K1 = 3`, `K2 = 7`. -/
theorem parallel_count_exact_witness :
    custom_parallel_count_if [2, 3, 4, 5, 6, 7, 8, 9, 10, 11] 3
        = count_if_seq [2, 3, 4, 5, 6, 7, 8, 9, 10, 11] ∧
    custom_parallel_count_if [2, 3, 4, 5, 6, 7, 8, 9, 10, 11] 3
        = custom_parallel_count_if [2, 3, 4, 5, 6, 7, 8, 9, 10, 11] 7 :=
  parallel_count_exact [2, 3, 4, 5, 6, 7, 8, 9, 10, 11] 3 7 (by decide) (by decide)

/-! ### The chunk partition (C2) -/

/-- Membership in the chunk list: exactly the non-empty ranges
`[i*c, min (i*c + c) n)` for worker indices `i < num_threads`. -/
lemma chunkList_mem (n : Nat) (K : Int) (f : Nat × Nat) :
    f ∈ chunkList n K ↔ ∃ i < K.toNat,
      f = (i * chunk_size_of n K.toNat,
        min (i * chunk_size_of n K.toNat + chunk_size_of n K.toNat) n) ∧
      i * chunk_size_of n K.toNat
        < min (i * chunk_size_of n K.toNat + chunk_size_of n K.toNat) n := by
  simp only [chunkList, List.mem_filterMap, List.mem_range]
  constructor
  · rintro ⟨i, hi, hf⟩
    by_cases h : min (i * chunk_size_of n K.toNat + chunk_size_of n K.toNat) n
        ≤ i * chunk_size_of n K.toNat
    · rw [if_pos h] at hf
      exact absurd hf (by simp)
    · rw [if_neg h] at hf
      exact ⟨i, hi, (Option.some_injective _ hf).symm, not_le.mp h⟩
  · rintro ⟨i, hi, rfl, hlt⟩
    exact ⟨i, hi, by rw [if_neg (not_le.mpr hlt)]⟩

/-- The chunks come in index order and never overlap: each chunk ends no
later than the next one starts. -/
lemma chunkList_pairwise (n : Nat) (K : Int) :
    (chunkList n K).Pairwise fun f g => f.2 ≤ g.1 := by
  unfold chunkList
  rw [List.pairwise_filterMap]
  refine List.Pairwise.imp ?_ (List.pairwise_lt_range K.toNat)
  intro i i' hii b hb b' hb'
  by_cases h : min (i * chunk_size_of n K.toNat + chunk_size_of n K.toNat) n
      ≤ i * chunk_size_of n K.toNat
  · rw [if_pos h] at hb
    exact absurd hb (by simp)
  by_cases h' : min (i' * chunk_size_of n K.toNat + chunk_size_of n K.toNat) n
      ≤ i' * chunk_size_of n K.toNat
  · rw [if_pos h'] at hb'
    exact absurd hb' (by simp)
  rw [if_neg h] at hb
  rw [if_neg h'] at hb'
  cases hb
  cases hb'
  calc min (i * chunk_size_of n K.toNat + chunk_size_of n K.toNat) n
      ≤ i * chunk_size_of n K.toNat + chunk_size_of n K.toNat := min_le_left _ _
    _ = (i + 1) * chunk_size_of n K.toNat := by ring
    _ ≤ i' * chunk_size_of n K.toNat := Nat.mul_le_mul_right _ (by omega)

/-- Every index below `n` lies in some chunk, and every chunk index is
below `n`: the union of the chunk ranges is exactly `[0, n)`. -/
lemma chunkList_covers (n : Nat) (K : Int) (hn : 1 ≤ n) (hK : 1 ≤ K) (j : Nat) :
    (∃ f ∈ chunkList n K, f.1 ≤ j ∧ j < f.2) ↔ j < n := by
  have hK1 : 1 ≤ K.toNat := by omega
  have hcpos := chunk_size_pos n K.toNat hK1 hn
  have hcov := chunk_size_covers n K.toNat hK1 hn
  set c := chunk_size_of n K.toNat with hc
  constructor
  · rintro ⟨f, hf, _, h2⟩
    obtain ⟨i, _, rfl, _⟩ := (chunkList_mem n K f).mp hf
    exact lt_of_lt_of_le h2 (min_le_right _ _)
  · intro hj
    refine ⟨(j / c * c, min (j / c * c + c) n), ?_, Nat.div_mul_le_self j c, ?_⟩
    · rw [chunkList_mem]
      refine ⟨j / c, ?_, rfl, ?_⟩
      · rw [Nat.div_lt_iff_lt_mul (by omega)]
        exact lt_of_lt_of_le hj hcov
      · exact lt_min (by omega) (lt_of_le_of_lt (Nat.div_mul_le_self j c) hj)
    · have h1 := Nat.mod_add_div' j c
      have h2 : j % c < c := Nat.mod_lt j (by omega)
      exact lt_min (by omega) hj

/-- C2: for every non-empty dataset and worker count `K ≥ 1` the chunks of
`custom_parallel_count_if` — with empty ranges skipped — form an exact
partition of the index range `[0, |D|)`: each chunk ends before the next
begins (pairwise disjoint) and their union is the full range. For
`D = [2,3,4,5,6,7,8,9,10,11]` and `K = 3` the chunks are
`[0,4), [4,8), [8,10)` with per-chunk even counts `2, 2, 1` and total `5`. -/
theorem chunks_partition (data : List Int) (K : Int) (hd : data ≠ []) (hK : 1 ≤ K) :
    ((chunkList data.length K).Pairwise fun f g => f.2 ≤ g.1) ∧
    (∀ j, (∃ f ∈ chunkList data.length K, f.1 ≤ j ∧ j < f.2) ↔ j < data.length) ∧
    chunkList 10 3 = [(0, 4), (4, 8), (8, 10)] ∧
    (chunkList 10 3).map
        (fun f => taskCount [2, 3, 4, 5, 6, 7, 8, 9, 10, 11] f.1 f.2) = [2, 2, 1] ∧
    custom_parallel_count_if [2, 3, 4, 5, 6, 7, 8, 9, 10, 11] 3 = 5 :=
  ⟨chunkList_pairwise _ _,
   fun j => chunkList_covers data.length K (List.length_pos.mpr hd) hK j,
   by decide, by decide, by decide⟩

/-- Witness for C2 at `D = [2..11]`, `K = 3`. -/
theorem chunks_partition_witness :
    ((chunkList 10 3).Pairwise fun f g => f.2 ≤ g.1) ∧
    (∀ j, (∃ f ∈ chunkList 10 3, f.1 ≤ j ∧ j < f.2) ↔ j < 10) ∧
    chunkList 10 3 = [(0, 4), (4, 8), (8, 10)] ∧
    (chunkList 10 3).map
        (fun f => taskCount [2, 3, 4, 5, 6, 7, 8, 9, 10, 11] f.1 f.2) = [2, 2, 1] ∧
    custom_parallel_count_if [2, 3, 4, 5, 6, 7, 8, 9, 10, 11] 3 = 5 :=
  chunks_partition [2, 3, 4, 5, 6, 7, 8, 9, 10, 11] 3 (by decide) (by decide)

/-- C3: for every worker count `K ≥ 1`, the engine applied to the empty
dataset returns `0` immediately, with zero tasks spawned (the `futures`
vector stays empty). -/
theorem empty_dataset_zero (K : Int) (_hK : 1 ≤ K) :
    custom_parallel_count_if [] K = 0 ∧ futuresOf [] K = [] :=
  ⟨rfl, rfl⟩

/-- Witness for C3 at `K = 4`. -/
theorem empty_dataset_zero_witness :
    custom_parallel_count_if [] 4 = 0 ∧ futuresOf [] 4 = [] :=
  empty_dataset_zero 4 (by decide)

/-! ### The driver's worker-count guard (C4) -/

/-- C4: the Phase-C loop guards against `worker_count < 1` before the value
reaches the chunk-size division: `if (k == 0) continue;` filters `0` out,
so every worker count actually passed to the engine is at least `1`, the
divisor `(k : Int).toNat` of the chunk-size formula is never `0` in a
performed call, and `0` is never among the executed worker counts. -/
theorem worker_count_guard (H k : Nat) (hk : k ∈ phaseC_ks H) :
    1 ≤ k ∧ ((k : Int)).toNat ≠ 0 ∧ (0 : Nat) ∉ phaseC_ks H := by
  have hmem : ∀ x, x ∈ phaseC_ks H → x ≠ 0 := by
    intro x hx
    rw [phaseC_ks, List.mem_filter] at hx
    simpa using hx.2
  have h1 := hmem k hk
  exact ⟨by omega, by omega, fun h0 => (hmem 0 h0) rfl⟩

/-! ### The candidate worker-count list (C5) -/

/-- On a `≤`-sorted list, `destutter (· ≠ ·)` (i.e. `std::unique`) keeps at
least one copy of every element: membership is preserved. -/
lemma mem_destutter'_of_sorted :
    ∀ (l : List Nat) (a x : Nat), (a :: l).Sorted (· ≤ ·) → x ∈ a :: l →
      x ∈ l.destutter' (· ≠ ·) a := by
  intro l
  induction l with
  | nil =>
    intro a x _ hx
    rw [List.destutter'_nil]
    simpa using hx
  | cons b l ih =>
    intro a x hs hx
    rw [List.destutter'_cons]
    by_cases hab : a ≠ b
    · rw [if_pos hab]
      rcases List.mem_cons.mp hx with rfl | hx'
      · exact List.mem_cons_self _ _
      · exact List.mem_cons_of_mem _ (ih b x hs.of_cons hx')
    · rw [if_neg hab]
      push_neg at hab
      subst hab
      refine ih a x hs.of_cons ?_
      rcases List.mem_cons.mp hx with rfl | hx'
      · exact List.mem_cons_self _ _
      · exact hx'

lemma mem_destutter_of_sorted (l : List Nat) (hs : l.Sorted (· ≤ ·)) (x : Nat)
    (hx : x ∈ l) : x ∈ l.destutter (· ≠ ·) := by
  cases l with
  | nil => simp at hx
  | cons a t =>
    rw [List.destutter_cons']
    exact mem_destutter'_of_sorted t a x hs hx

/-- The elements of the deduplicated candidate list are exactly the pushed
candidates. -/
lemma mem_k_values (H x : Nat) :
    x ∈ k_values H ↔
      (x = 1 ∨ (1 < H ∧ x = H / 2) ∨ x = H ∨
        x = H + (if 1 < H then H / 2 else 1) ∨ x = H * 2 ∨
        (2 < H ∧ x = H * 3) ∨ x = 32) := by
  have hperm := List.mergeSort_perm (k_values_raw H) (fun a b => decide (a ≤ b))
  have hsorted := List.sorted_mergeSort' (k_values_raw H)
  have h1 : x ∈ k_values H ↔ x ∈ k_values_raw H := by
    constructor
    · intro hx
      exact hperm.mem_iff.mp ((List.destutter_sublist _ _).subset hx)
    · intro hx
      exact mem_destutter_of_sorted _ hsorted x (hperm.mem_iff.mpr hx)
  rw [h1]
  unfold k_values_raw
  by_cases ha : 1 < H <;> by_cases hb : 2 < H <;> simp [ha, hb]

/-- Witness for C4 at `H = 8`, `k = 4` (`4 = H/2` is in the list). -/
theorem worker_count_guard_witness :
    1 ≤ 4 ∧ ((4 : Nat) : Int).toNat ≠ 0 ∧ (0 : Nat) ∉ phaseC_ks 8 :=
  worker_count_guard 8 4
    (List.mem_filter.mpr
      ⟨(mem_k_values 8 4).mpr (Or.inr (Or.inl ⟨by decide, by decide⟩)), by decide⟩)

lemma k_values_sorted_lt (H : Nat) : (k_values H).Sorted (· < ·) := by
  have hsorted : ((k_values_raw H).mergeSort (· ≤ ·)).Sorted (· ≤ ·) :=
    List.sorted_mergeSort' _
  have hchain : (k_values H).Chain' (· ≠ ·) := List.destutter_is_chain' _ _
  have hle : (k_values H).Sorted (· ≤ ·) :=
    List.Pairwise.sublist (List.destutter_sublist _ _) hsorted
  refine List.chain'_iff_pairwise.mp ?_
  have hle' := List.Pairwise.chain' hle
  rw [List.chain'_iff_get] at hchain hle' ⊢
  intro i h
  exact lt_of_le_of_ne (hle' i h) (hchain i h)

lemma k_values_nodup (H : Nat) : (k_values H).Nodup :=
  List.Pairwise.imp (fun h => ne_of_lt h) (k_values_sorted_lt H)

/-- C5: for every hardware-concurrency value `H`, the candidate list built
by the driver holds exactly the values `1`, `H/2` (only if `H > 1`), `H`,
`H + H/2` (if `H > 1`, otherwise `H + 1`), `2H`, `3H` (only if `H > 2`)
and `32`, and it is sorted strictly ascending with no duplicates. -/
theorem k_values_characterization (H : Nat) :
    (∀ x, x ∈ k_values H ↔
      (x = 1 ∨ (1 < H ∧ x = H / 2) ∨ x = H ∨
        x = H + (if 1 < H then H / 2 else 1) ∨ x = H * 2 ∨
        (2 < H ∧ x = H * 3) ∨ x = 32)) ∧
    (k_values H).Sorted (· < ·) ∧ (k_values H).Nodup :=
  ⟨fun x => mem_k_values H x, k_values_sorted_lt H, k_values_nodup H⟩

/-- C10: the empty-dataset early return (src/main.cpp:41-43) precedes the
chunk-size division, so for EVERY `worker_count` value — including `0` and
negative values — the engine returns `0` on the empty dataset, no division
by zero is reached and no task is spawned. -/
theorem empty_dataset_zero_any_worker_count (K : Int) :
    custom_parallel_count_if [] K = 0 ∧ futuresOf [] K = [] :=
  ⟨rfl, rfl⟩

/-! ### Best-K selection (C6) -/

/-- Folding `min` over record times never goes above its starting value. -/
lemma minElapsed_le_init (l : List (Nat × ℚ)) :
    ∀ a : ℚ, l.foldl (fun acc r => min acc r.2) a ≤ a := by
  induction l with
  | nil => intro a; simp
  | cons r t ih =>
    intro a
    calc t.foldl (fun acc r => min acc r.2) (min a r.2)
        ≤ min a r.2 := ih (min a r.2)
      _ ≤ a := min_le_left _ _

/-- The folded minimum is a lower bound of every record time. -/
lemma minElapsed_le_of_mem (l : List (Nat × ℚ)) :
    ∀ (a : ℚ) (s : Nat × ℚ), s ∈ l → l.foldl (fun acc r => min acc r.2) a ≤ s.2 := by
  induction l with
  | nil => intro a s hs; simp at hs
  | cons r t ih =>
    intro a s hs
    rcases List.mem_cons.mp hs with rfl | hs'
    · calc t.foldl (fun acc r => min acc r.2) (min a s.2)
          ≤ min a s.2 := minElapsed_le_init t _
        _ ≤ s.2 := min_le_right _ _
    · exact ih (min a r.2) s hs'

/-- The running strict-minimum fold lands on the earliest record whose time
equals the overall minimum. -/
lemma bestFold_go :
    ∀ (recs : List (Nat × ℚ)) (b : Nat × ℚ),
      ∃ w, (b :: recs).find? (fun s => s.2 == minElapsed b recs) = some w ∧
        recs.foldl bestStep ((b.1 : Int), some b.2)
          = ((w.1 : Int), some (minElapsed b recs)) := by
  intro recs
  induction recs with
  | nil =>
    intro b
    refine ⟨b, ?_, ?_⟩
    · simp [minElapsed, List.find?_cons]
    · simp [minElapsed]
  | cons r rest ih =>
    intro b
    have hstep : List.foldl bestStep ((b.1 : Int), some b.2) (r :: rest)
        = List.foldl bestStep (((if r.2 < b.2 then r else b).1 : Int),
            some (if r.2 < b.2 then r else b).2) rest := by
      rw [List.foldl_cons]
      by_cases h : r.2 < b.2
      · simp [bestStep, h]
      · simp [bestStep, h]
    set b' : Nat × ℚ := if r.2 < b.2 then r else b with hb'
    have hb'2 : b'.2 = min b.2 r.2 := by
      by_cases h : r.2 < b.2
      · rw [hb', if_pos h]
        exact (min_eq_right h.le).symm
      · rw [hb', if_neg h]
        exact (min_eq_left (not_lt.mp h)).symm
    have hmin : minElapsed b (r :: rest) = minElapsed b' rest := by
      unfold minElapsed
      rw [List.foldl_cons, hb'2]
    have hb'le : b'.2 ≤ b.2 := by
      rw [hb'2]
      exact min_le_left _ _
    obtain ⟨w, hw1, hw2⟩ := ih b'
    set m := minElapsed b' rest with hm
    have hm_le : m ≤ b'.2 := minElapsed_le_init rest b'.2
    rw [hmin, hstep]
    by_cases hbm : b.2 = m
    · have hbb : b' = b := by
        by_cases h : r.2 < b.2
        · exfalso
          have hr2 : b'.2 = r.2 := by rw [hb', if_pos h]
          rw [hr2, ← hbm] at hm_le
          exact absurd h (not_lt.mpr hm_le)
        · rw [hb', if_neg h]
      have htrue : (b.2 == m) = true := beq_iff_eq.mpr hbm
      have hw1' : w = b := by
        rw [hbb, List.find?_cons, htrue] at hw1
        exact (Option.some_injective _ hw1).symm
      refine ⟨b, ?_, ?_⟩
      · simp only [List.find?_cons, htrue]
      · rw [hw2, hw1']
    · have hmlt : m < b.2 :=
        lt_of_le_of_ne (le_trans hm_le hb'le) (by intro h; exact hbm h.symm)
      have hpb : (b.2 == m) = false := beq_eq_false_iff_ne.mpr hbm
      refine ⟨w, ?_, hw2⟩
      simp only [List.find?_cons, hpb]
      by_cases h : r.2 < b.2
      · rw [hb', if_pos h] at hw1
        exact hw1
      · rw [hb', if_neg h] at hw1
        simp only [List.find?_cons, hpb] at hw1
        have hrm : (r.2 == m) = false := by
          refine beq_eq_false_iff_ne.mpr ?_
          intro hr
          rw [← hr] at hmlt
          exact h hmlt
        simp only [hrm]
        exact hw1

/-- C6: best-K selection over the Phase-C records is the running minimum of
elapsed time under strict less-than: the reported best K comes from the
earliest record attaining the overall minimum time, so on an exact tie the
first-seen K wins.  For records `[(K=1, t=2), (K=4, t=1/2), (K=8, t=1/2)]`
the selected best K is `4`. -/
theorem best_k_selection (b : Nat × ℚ) (recs : List (Nat × ℚ)) :
    (∃ w, (b :: recs).find? (fun s => s.2 == minElapsed b recs) = some w ∧
      bestFold (b :: recs) = ((w.1 : Int), some (minElapsed b recs)) ∧
      ∀ s ∈ b :: recs, minElapsed b recs ≤ s.2) ∧
    bestFold [(1, 2), (4, 1/2), (8, 1/2)] = (4, some (1/2)) := by
  constructor
  · obtain ⟨w, h1, h2⟩ := bestFold_go recs b
    refine ⟨w, h1, ?_, ?_⟩
    · unfold bestFold
      rw [List.foldl_cons]
      exact h2
    · intro s hs
      rcases List.mem_cons.mp hs with rfl | hs'
      · exact minElapsed_le_init recs s.2
      · exact minElapsed_le_of_mem recs b.2 s hs'
  · norm_num [bestFold, bestStep]

/-! ### Zero hardware concurrency (C7) -/

/-- C7 counterexample: the final report's ratio division is NOT guarded —
at `H = 0` the code divides by the raw value `0`, not by the spec's
fallback value `1`. -/
theorem ratio_guard_counterexample :
    ratio_divisor 0 ≠ guarded_ratio_divisor 0 := by
  decide

/-- C7 amended: when the hardware-concurrency query returns `0`, the
candidate K-list still contains `1` and `32` (and its construction divides
only by the constant `2`, never by `H`), but the final best-K ratio
divides by the raw `H = 0` with no fallback to `1`. -/
theorem k_list_safe_at_zero_concurrency :
    1 ∈ k_values 0 ∧ 32 ∈ k_values 0 ∧ ratio_divisor 0 = 0 ∧
    ratio_divisor 0 ≠ guarded_ratio_divisor 0 :=
  ⟨(mem_k_values 0 1).mpr (Or.inl rfl),
   (mem_k_values 0 32).mpr (by simp),
   rfl, by decide⟩

/-! ### Frame property (C8) -/

lemma foldl_read_state (data : List Int) :
    ∀ (idxs : List Nat) (a : Int),
      idxs.foldl (fun acc j =>
          let r := readElem acc.2 j
          (if is_even r.1 then acc.1 + 1 else acc.1, r.2)) (a, data)
        = (idxs.foldl (fun acc j =>
            if is_even (data.getD j 0) then acc + 1 else acc) a, data) := by
  intro idxs
  induction idxs with
  | nil => intro a; rfl
  | cons j l ih =>
    intro a
    rw [List.foldl_cons, List.foldl_cons]
    exact ih _

/-- A worker task only reads the dataset: the state it returns is the
dataset it was given, and its count is the pure task count. -/
lemma taskCountSt_eq (data : List Int) (s e : Nat) :
    taskCountSt data s e = (taskCount data s e, data) := by
  unfold taskCountSt taskCount
  exact foldl_read_state data (List.range' s (e - s)) 0

lemma foldl_tasks_state (data : List Int) :
    ∀ (fs : List (Nat × Nat)) (a : Int),
      fs.foldl (fun acc f =>
          let r := taskCountSt acc.2 f.1 f.2
          (acc.1 + r.1, r.2)) (a, data)
        = (fs.foldl (fun total_count f =>
            total_count + taskCount data f.1 f.2) a, data) := by
  intro fs
  induction fs with
  | nil => intro a; rfl
  | cons f l ih =>
    intro a
    rw [List.foldl_cons, List.foldl_cons]
    conv_lhs => arg 2; simp only [taskCountSt_eq]
    exact ih _

/-- C8: the engine does not mutate the input dataset — threading the
dataset as state through every read, the state after the call equals the
dataset before it, and the only output is the returned count, which equals
the pure engine's result. -/
theorem no_dataset_mutation (data : List Int) (K : Int) (_hK : 1 ≤ K) :
    (custom_parallel_count_if_st data K).2 = data ∧
    (custom_parallel_count_if_st data K).1 = custom_parallel_count_if data K := by
  unfold custom_parallel_count_if_st custom_parallel_count_if
  by_cases hd : data.isEmpty = true
  · rw [if_pos hd, if_pos hd]
    exact ⟨rfl, rfl⟩
  · rw [if_neg hd, if_neg hd, foldl_tasks_state data (futuresOf data K) 0]
    exact ⟨rfl, rfl⟩

/-- Witness for C8 at `D = [2..11]`, `K = 3`. -/
theorem no_dataset_mutation_witness :
    (custom_parallel_count_if_st [2, 3, 4, 5, 6, 7, 8, 9, 10, 11] 3).2
        = [2, 3, 4, 5, 6, 7, 8, 9, 10, 11] ∧
    (custom_parallel_count_if_st [2, 3, 4, 5, 6, 7, 8, 9, 10, 11] 3).1
        = custom_parallel_count_if [2, 3, 4, 5, 6, 7, 8, 9, 10, 11] 3 :=
  no_dataset_mutation [2, 3, 4, 5, 6, 7, 8, 9, 10, 11] 3 (by decide)

/-! ### Count storage widths (C9) -/

/-- The engine's result is a count: non-negative and at most the data
size (so it fits even a 32-bit variable for sizes up to `10^8`). -/
lemma custom_count_bounds (data : List Int) (K : Int) :
    0 ≤ custom_parallel_count_if data K ∧
    custom_parallel_count_if data K ≤ (data.length : Int) := by
  by_cases hK : 1 ≤ K
  · rw [custom_parallel_eq_countP data K hK]
    constructor
    · exact Int.natCast_nonneg _
    · exact_mod_cast List.countP_le_length is_even
  · have h0 : custom_parallel_count_if data K = 0 := by
      unfold custom_parallel_count_if
      by_cases hd : data.isEmpty = true
      · rw [if_pos hd]
      · rw [if_neg hd]
        unfold futuresOf
        rw [if_neg hd]
        unfold chunkList
        have ht : K.toNat = 0 := by omega
        rw [ht]
        rfl
    rw [h0]
    exact ⟨le_refl 0, Int.natCast_nonneg _⟩

/-- C9 counterexample: not every 64-bit-range count value survives every
count store — the Phase-A baseline count is stored in the 32-bit
`int nonlocal` (src/main.cpp:92), which narrows: it does not preserve
`2^31`. -/
theorem counts_64bit_counterexample :
    ¬ ∀ c : Int, -(2 ^ 63) ≤ c → c < 2 ^ 63 → store_nonlocal c = c := by
  intro h
  exact absurd (h (2 ^ 31) (by decide) (by decide)) (by decide)

/-- C9 amended: the engine's partial counts and total, and the counts the
driver records in `count_result` and `last_count`, are stored in 64-bit
variables and preserve every 64-bit-range value; the Phase-A baseline
count, however, is stored in the 32-bit `int nonlocal` — a narrowing —
which still preserves every actual count for data sizes up to `10^8`
(counts are bounded by the data size, and `10^8 < 2^31`). -/
theorem counts_64bit_storage (c : Int) (h1 : -(2 ^ 63) ≤ c) (h2 : c < 2 ^ 63)
    (d : Int) (hd1 : 0 ≤ d) (hd2 : d ≤ 10 ^ 8) :
    store_total_count c = c ∧ store_count_result c = c ∧ store_last_count c = c ∧
    store_nonlocal d = d ∧
    ∀ data K, 0 ≤ custom_parallel_count_if data K ∧
      custom_parallel_count_if data K ≤ (data.length : Int) := by
  refine ⟨?_, ?_, ?_, ?_, fun data K => custom_count_bounds data K⟩ <;>
    simp only [store_total_count, store_count_result, store_last_count,
      store_nonlocal, wrapSigned] <;>
    omega

/-- Witness for C9 (amended) at `c = 2^40`, `d = 12345`. -/
theorem counts_64bit_storage_witness :
    store_total_count (2 ^ 40) = 2 ^ 40 ∧ store_count_result (2 ^ 40) = 2 ^ 40 ∧
    store_last_count (2 ^ 40) = 2 ^ 40 ∧ store_nonlocal 12345 = 12345 ∧
    ∀ data K, 0 ≤ custom_parallel_count_if data K ∧
      custom_parallel_count_if data K ≤ (data.length : Int) :=
  counts_64bit_storage (2 ^ 40) (by decide) (by decide) 12345 (by decide) (by decide)

end Lab2
